import Mathlib

/-!
# Verification of the git-hud repository/worktree orchestrator

A shallow embedding, in Lean 4, of the core algorithms and lifecycle
pipelines of the `git-hud` ("grove") code base:

* character-level string algorithms from `crates/grove-api/src/routes.rs`
  (`sanitize_branch_name`) and `crates/grove-core/src/git.rs`
  (`glob_match`, `parse_git_url`, `extract_provider`, `share_files`,
  `collect_files`, `GitOps::create_worktree`);
* the lifecycle pipelines of `crates/grove-api/src/routes.rs`
  (`do_clone`, `delete_repository`, `create_worktree`/`do_create_worktree`,
  `delete_worktree`, `refresh_repository`) over an explicit system state
  consisting of the store (`crates/grove-core/src/db.rs`), the progress
  map / broadcaster (`crates/grove-core/src/state.rs`) and a record of
  filesystem removals.

Rust strings are modelled as `List Char`; Rust standard-library string
functions (`replace`, `split`, `splitn`, `trim_end_matches`, `starts_with`,
`ends_with`, `contains`, `strip_prefix`) are given executable Lean
counterparts with the documented Rust semantics.  Fallible external calls
(git subprocesses, network, filesystem) are driven by explicit environment
records of success flags; store mutations are modelled as pure in-memory
updates.
-/

set_option autoImplicit false

namespace GitHud

/-! ## Character-level string model (Rust `str` functions) -/

/-- Rust `str::starts_with(pat)`: `startsWithL pat s` is true iff `pat` is an
initial segment of `s`. -/
def startsWithL : List Char → List Char → Bool
  | [], _ => true
  | _ :: _, [] => false
  | p :: ps, c :: cs => p == c && startsWithL ps cs

/-- Rust `str::ends_with(pat)`. -/
def endsWithL (pat s : List Char) : Bool :=
  startsWithL pat.reverse s.reverse

/-- Rust `str::contains(pat)` for a string pattern: some suffix of `s` starts
with `pat`. -/
def containsSub (pat : List Char) : List Char → Bool
  | [] => pat.isEmpty
  | c :: cs => startsWithL pat (c :: cs) || containsSub pat cs

/-- Rust `str::replace(from, to)` worker, structurally recursive on a fuel
bound so the kernel can evaluate it; the fuel never runs out when it starts
at the string's length. -/
def replaceFuel (pat rep : List Char) : Nat → List Char → List Char
  | _, [] => []
  | 0, s => s
  | fuel + 1, c :: cs =>
    if pat ≠ [] ∧ startsWithL pat (c :: cs) then
      rep ++ replaceFuel pat rep fuel (cs.drop (pat.length - 1))
    else
      c :: replaceFuel pat rep fuel cs

/-- Rust `str::replace(from, to)`: left-to-right, non-overlapping replacement
of every occurrence of `from` (assumed non-empty at every call site in the
source) by `to`. -/
def replaceSub (pat rep s : List Char) : List Char :=
  replaceFuel pat rep s.length s

/-- Rust `str::split(pat)` worker for a non-empty string or single-char
pattern: splits on every (left-to-right, non-overlapping) occurrence.  `acc`
is the current segment, reversed; the fuel never runs out when it starts at
the string's length. -/
def splitFuel (pat : List Char) : Nat → List Char → List Char → List (List Char)
  | _, acc, [] => [acc.reverse]
  | 0, acc, s => [acc.reverse ++ s]
  | fuel + 1, acc, c :: cs =>
    if pat ≠ [] ∧ startsWithL pat (c :: cs) then
      acc.reverse :: splitFuel pat fuel [] (cs.drop (pat.length - 1))
    else
      splitFuel pat fuel (c :: acc) cs

/-- Rust `str::split(pat)`. -/
def splitSub (pat s : List Char) : List (List Char) :=
  splitFuel pat s.length [] s

/-- Rust `str::splitn(2, c)`: split on the first occurrence of the character
`c` only (one or two resulting parts). -/
def splitn2Aux (c : Char) (acc : List Char) : List Char → List (List Char)
  | [] => [acc.reverse]
  | x :: xs => if x == c then [acc.reverse, xs] else splitn2Aux c (x :: acc) xs

/-- Rust `str::splitn(2, c)`. -/
def splitn2 (c : Char) (s : List Char) : List (List Char) :=
  splitn2Aux c [] s

/-- Rust `str::trim_end_matches(pat)` worker: repeatedly remove `pat` from
the end while it is a (length-bounded) suffix; the fuel never runs out when
it starts at the string's length. -/
def trimEndFuel (pat : List Char) : Nat → List Char → List Char
  | 0, s => s
  | fuel + 1, s =>
    if pat ≠ [] ∧ endsWithL pat s ∧ pat.length ≤ s.length then
      trimEndFuel pat fuel (s.take (s.length - pat.length))
    else s

/-- Rust `str::trim_end_matches(pat)` for a string pattern. -/
def trimEndMatches (pat s : List Char) : List Char :=
  trimEndFuel pat s.length s

/-- Rust `str::trim_end_matches(c)` for a char pattern: drop trailing `c`s. -/
def trimEndChar (c : Char) (s : List Char) : List Char :=
  (s.reverse.dropWhile (· == c)).reverse

/-- Rust `str::trim_start_matches(c)` for a char pattern: drop leading `c`s. -/
def trimStartChar (c : Char) (s : List Char) : List Char :=
  s.dropWhile (· == c)

/-- Rust `str::strip_prefix(pat)`. -/
def stripPrefixSub (pat s : List Char) : Option (List Char) :=
  if startsWithL pat s then some (s.drop pat.length) else none

/-- The character class kept by `sanitize_branch_name`: Rust
`char::is_alphanumeric() || c == '.' || c == '_' || c == '-'`.  (Rust's
`is_alphanumeric` is Unicode-alphanumeric; on the ASCII range — the range all
theorems below use — it agrees with `Char.isAlphanum`.) -/
def keepChar (c : Char) : Bool :=
  c.isAlphanum || c == '.' || c == '_' || c == '-'

/-- `sanitize_branch_name` from `crates/grove-api/src/routes.rs`:
the default branch maps to the reserved name `.main`; any other branch has
`..` replaced by `__`, then `/` replaced by `--`, then every character not in
the kept class filtered out. -/
def sanitize_branch_name (branch default_branch : List Char) : List Char :=
  if branch = default_branch then ".main".toList
  else
    ((replaceSub "..".toList "__".toList branch
      |> replaceSub ['/'] "--".toList)).filter keepChar

/-- `glob_match` from `crates/grove-core/src/git.rs`.  The Rust function uses
early returns; this is the same decision tree written as nested matches:
a pattern splitting in exactly two around `**` is handled by the `**` branch
(prefix/suffix check after trimming a separator), otherwise a pattern
splitting in exactly two around `*` is handled by the `*` branch
(`starts_with`/`ends_with`), otherwise the pattern must match exactly. -/
def glob_match (pattern path : List Char) : Bool :=
  if containsSub "**".toList pattern then
    match splitSub "**".toList pattern with
    | [p0, p1] =>
      let pre := trimEndChar '/' p0
      let suf := trimStartChar '/' p1
      (pre.isEmpty || startsWithL pre path) && (suf.isEmpty || endsWithL suf path)
    | _ => glob_match_star pattern path
  else glob_match_star pattern path
where
  /-- The single-`*` branch and the exact-match fallthrough of `glob_match`. -/
  glob_match_star (pattern path : List Char) : Bool :=
    if pattern.contains '*' then
      match splitSub ['*'] pattern with
      | [p0, p1] => startsWithL p0 path && endsWithL p1 path
      | _ => pattern == path
    else pattern == path

/-! ## URL parsing (`parse_git_url`, `extract_provider` in grove-core/src/git.rs) -/

/-- The result type `ParsedGitUrl` from `crates/grove-core/src/types.rs`. -/
structure ParsedGitUrl where
  provider : List Char
  username : List Char
  name : List Char
  url : List Char
deriving DecidableEq, Repr

/-- `extract_provider` from `crates/grove-core/src/git.rs`: hostname substring
matching against known hosts, else the first dot-separated hostname label. -/
def extract_provider (host : List Char) : List Char :=
  if containsSub "github".toList host then "github".toList
  else if containsSub "gitlab".toList host then "gitlab".toList
  else if containsSub "bitbucket".toList host then "bitbucket".toList
  else
    match splitSub ['.'] host with
    | [] => "unknown".toList
    | p :: _ => p

/-- The SSH branch of `parse_git_url`: `git@host:user/repo[.git]`. -/
def sshGitUrl (url : List Char) : Option ParsedGitUrl :=
  match stripPrefixSub "git@".toList url with
  | none => none
  | some rest =>
    match splitn2 ':' rest with
    | [hostPart, pathPart] =>
      let provider := extract_provider hostPart
      let path := trimEndMatches ".git".toList pathPart
      match splitn2 '/' path with
      | [user, nm] => some ⟨provider, user, nm, url⟩
      | _ => none
    | _ => none

/-- Models the external `url` crate's `Url::parse` for plain
`http(s)://host/path` URLs (no userinfo, port, query or fragment): the host is
everything up to the first `/` after the scheme, the path is the rest.
`Url::parse` rejects an empty host, modelled by returning `none`. -/
def urlHostPath (url : List Char) : Option (List Char × List Char) :=
  let rest? :=
    match stripPrefixSub "https://".toList url with
    | some r => some r
    | none => stripPrefixSub "http://".toList url
  match rest? with
  | none => none
  | some r =>
    let host := r.takeWhile (fun c => c != '/')
    if host.isEmpty then none
    else some (host, r.dropWhile (fun c => c != '/'))

/-- The HTTPS branch of `parse_git_url`: `http(s)://host/user/repo[.git]`. -/
def httpsGitUrl (url : List Char) : Option ParsedGitUrl :=
  if startsWithL "https://".toList url || startsWithL "http://".toList url then
    match urlHostPath url with
    | none => none
    | some (host, path0) =>
      let provider := extract_provider host
      let path := trimEndMatches ".git".toList (trimStartChar '/' path0)
      match splitn2 '/' path with
      | [user, nm] => some ⟨provider, user, nm, url⟩
      | _ => none
  else none

/-- `parse_git_url` from `crates/grove-core/src/git.rs`: try the SSH form
first, then the HTTPS form, else `none`. -/
def parse_git_url (url : List Char) : Option ParsedGitUrl :=
  match sshGitUrl url with
  | some p => some p
  | none => httpsGitUrl url

/-! ## File sharing engine (`collect_files`, `share_files` in grove-core/src/git.rs) -/

/-- A directory's entries in the source worktree: a list whose elements are
regular files or subdirectories. -/
inductive FsEntries where
  | nil : FsEntries
  | file (name : List Char) (rest : FsEntries) : FsEntries
  | dir (name : List Char) (sub : FsEntries) (rest : FsEntries) : FsEntries
deriving DecidableEq, Repr

/-- The path of an entry named `name` relative to the enumeration root, given
the relative path `pre` of its parent directory (`Path::strip_prefix` result
in the source). -/
def relPath (pre name : List Char) : List Char :=
  if pre.isEmpty then name else pre ++ '/' :: name

/-- `collect_files` from `share_files` in `crates/grove-core/src/git.rs`:
enumerate regular files as root-relative paths, skipping any entry (file or
whole directory) whose relative path contains the substring `.git`. -/
def collect_files (pre : List Char) : FsEntries → List (List Char)
  | .nil => []
  | .file name rest =>
    let rel := relPath pre name
    (if containsSub ".git".toList rel then [] else [rel]) ++ collect_files pre rest
  | .dir name sub rest =>
    let rel := relPath pre name
    (if containsSub ".git".toList rel then [] else collect_files rel sub)
      ++ collect_files pre rest

/-- All regular files of the tree as root-relative paths, with no exclusion.
Used to state what `collect_files` filters out. -/
def allFilesUnder (pre : List Char) : FsEntries → List (List Char)
  | .nil => []
  | .file name rest => relPath pre name :: allFilesUnder pre rest
  | .dir name sub rest => allFilesUnder (relPath pre name) sub ++ allFilesUnder pre rest

/-- One entry of the target worktree's on-disk state. -/
inductive TargetEntry where
  | preexisting : TargetEntry
  | dirMade : TargetEntry
  | symlinkTo (src : List Char) : TargetEntry
  | copyOf (src : List Char) : TargetEntry
deriving DecidableEq, Repr

/-- The target worktree's on-disk state: an association list from
target-root-relative path to entry (most recently created first).  A path is
`exists()` iff it has an entry. -/
abbrev TargetFs := List (List Char × TargetEntry)

/-- The chain of proper ancestor directories of a relative path, shortest
first (what `fs::create_dir_all(parent)` must create). -/
def parentDirs (p : List Char) : List (List Char) :=
  let segs := splitSub ['/'] p
  (List.range (segs.length - 1)).map (fun k => List.intercalate ['/'] (segs.take (k + 1)))

/-- `fs::create_dir_all` on the ancestor chain: add each missing directory. -/
def mkDirAll (ds : List (List Char)) (t : TargetFs) : TargetFs :=
  ds.foldl (fun t d => if (t.lookup d).isSome then t else (d, TargetEntry.dirMade) :: t) t

/-- The body of the `for file in files` loop of `share_files`: skip the file
when it matches no pattern or its target path already exists; otherwise create
the parent directories and a symlink (symlink patterns win) or a byte copy. -/
def shareStep (source : List Char) (symlink_patterns copy_patterns : List (List Char))
    (t : TargetFs) (file : List Char) : TargetFs :=
  let should_symlink := symlink_patterns.any (fun p => glob_match p file)
  let should_copy := copy_patterns.any (fun p => glob_match p file)
  if !should_symlink && !should_copy then t
  else if (t.lookup file).isSome then t
  else
    let t' := mkDirAll (parentDirs file) t
    if should_symlink then (file, TargetEntry.symlinkTo (source ++ '/' :: file)) :: t'
    else (file, TargetEntry.copyOf (source ++ '/' :: file)) :: t'

/-- `share_files` from `crates/grove-core/src/git.rs`: enumerate the source
tree, then run the sharing loop over every collected file. -/
def share_files (source : List Char) (srcTree : FsEntries) (t : TargetFs)
    (symlink_patterns copy_patterns : List (List Char)) : TargetFs :=
  (collect_files [] srcTree).foldl (shareStep source symlink_patterns copy_patterns) t

/-! ## Store model (`crates/grove-core/src/db.rs`)

Rows are kept as plain lists; each SQL statement becomes a pure list
operation.  Timestamp writes take the current time as an explicit `now`
argument.  Store queries/mutations are modelled as infallible (SQLite-level
failures are out of scope of this embedding). -/

/-- The worktree status enum (`WorktreeStatus` in grove-core). -/
inductive WtStatus where
  | creating : WtStatus
  | ready : WtStatus
  | error : WtStatus
  | deleting : WtStatus
deriving DecidableEq, Repr

/-- A row of the `repositories` table. -/
structure RepoRow where
  id : String
  provider : String
  username : String
  name : String
  cloneUrl : String
  localPath : String
  defaultBranch : String
  lastSynced : Nat
  createdAt : Nat
deriving DecidableEq, Repr

/-- A row of the `worktrees` table. -/
structure WorktreeRow where
  path : String
  repoId : String
  branch : String
  head : Option String
  status : WtStatus
  commitMessage : Option String
  dirty : Bool
  ahead : Int
  behind : Int
  lastStatusCheck : Nat
  createdAt : Nat
deriving DecidableEq, Repr

/-- A row of the `worktree_config` table. -/
structure ConfigRow where
  repoId : String
  symlinkPatterns : Option String
  copyPatterns : Option String
  upstreamRemote : String
deriving DecidableEq, Repr

/-- The whole store. -/
structure Db where
  repos : List RepoRow
  worktrees : List WorktreeRow
  configs : List ConfigRow
deriving DecidableEq, Repr

/-- `Database::get_repository`. -/
def getRepository (id : String) (db : Db) : Option RepoRow :=
  db.repos.find? (fun r => r.id == id)

/-- `Database::get_worktree` (lookup by primary-key path). -/
def getWorktree (path : String) (db : Db) : Option WorktreeRow :=
  db.worktrees.find? (fun w => w.path == path)

/-- `Database::list_worktrees` for a repository (`WHERE repo_id = ?`). -/
def listWorktrees (repoId : String) (db : Db) : List WorktreeRow :=
  db.worktrees.filter (fun w => w.repoId == repoId)

/-- `Database::get_worktree_config`. -/
def getWorktreeConfig (repoId : String) (db : Db) : Option ConfigRow :=
  db.configs.find? (fun c => c.repoId == repoId)

/-- `Database::insert_worktree`: the INSERT sets path, repo id, branch,
status and created_at; the remaining columns start at their defaults. -/
def insertWorktree (path repoId branch : String) (status : WtStatus) (now : Nat)
    (db : Db) : Db :=
  { db with worktrees := db.worktrees ++
      [{ path := path, repoId := repoId, branch := branch, head := none,
         status := status, commitMessage := none, dirty := false, ahead := 0,
         behind := 0, lastStatusCheck := 0, createdAt := now }] }

/-- `Database::update_worktree_status`: `UPDATE worktrees SET status, head,
commit_message WHERE path = ?`. -/
def updateWorktreeStatus (path : String) (status : WtStatus)
    (head commitMessage : Option String) (db : Db) : Db :=
  { db with worktrees := db.worktrees.map (fun w =>
      if w.path == path then
        { w with status := status, head := head, commitMessage := commitMessage }
      else w) }

/-- `Database::update_worktree_git_status`. -/
def updateWorktreeGitStatus (path : String) (dirty : Bool) (ahead behind : Int)
    (now : Nat) (db : Db) : Db :=
  { db with worktrees := db.worktrees.map (fun w =>
      if w.path == path then
        { w with dirty := dirty, ahead := ahead, behind := behind,
                 lastStatusCheck := now }
      else w) }

/-- `Database::delete_worktree`: one unconditional `DELETE ... WHERE path`. -/
def deleteWorktreeRow (path : String) (db : Db) : Db :=
  { db with worktrees := db.worktrees.filter (fun w => !(w.path == path)) }

/-- `Database::delete_repository`: three sequential DELETEs (worktrees,
config, repository row). -/
def deleteRepositoryRows (id : String) (db : Db) : Db :=
  { db with
      worktrees := db.worktrees.filter (fun w => !(w.repoId == id)),
      configs := db.configs.filter (fun c => !(c.repoId == id)),
      repos := db.repos.filter (fun r => !(r.id == id)) }

/-- `Database::update_repository_default_branch`. -/
def updateRepositoryDefaultBranch (id branch : String) (db : Db) : Db :=
  { db with repos := db.repos.map (fun r =>
      if r.id == id then { r with defaultBranch := branch } else r) }

/-- `Database::update_repository_synced`. -/
def updateRepositorySynced (id : String) (now : Nat) (db : Db) : Db :=
  { db with repos := db.repos.map (fun r =>
      if r.id == id then { r with lastSynced := now } else r) }

/-- `Database::upsert_worktree_config` (`ON CONFLICT(repo_id) DO UPDATE`). -/
def upsertWorktreeConfig (cfg : ConfigRow) (db : Db) : Db :=
  if db.configs.any (fun c => c.repoId == cfg.repoId) then
    { db with configs := db.configs.map (fun c =>
        if c.repoId == cfg.repoId then cfg else c) }
  else { db with configs := db.configs ++ [cfg] }

/-! ## Broadcaster and system state (`crates/grove-core/src/state.rs`)

The `StateManager`'s progress map is an association list keyed by repository
id or worktree path.  Every `set_progress` and every `on_db_change` recomputes
the full snapshot and broadcasts it; the model records the content of the most
recent broadcast in `lastPush`.  `removedDirs` records every directory
successfully removed from disk (`remove_dir_all`) by any pipeline. -/

/-- Removal of a key from the progress map (`HashMap::remove`). -/
def mapErase (k : String) (m : List (String × String)) : List (String × String) :=
  m.filter (fun e => !(e.1 == k))

/-- Insertion/overwrite of a key in the progress map (`HashMap::insert`). -/
def mapInsert (k v : String) (m : List (String × String)) : List (String × String) :=
  (k, v) :: mapErase k m

/-- The orchestrator-visible system state. -/
structure SysState where
  db : Db
  progress : List (String × String)
  lastPush : Option (List (String × String) × Db)
  removedDirs : List String
deriving DecidableEq, Repr

/-- `StateManager::set_progress`: mutate the progress map, then push the
resulting full snapshot. -/
def setProgress (key : String) (msg : Option String) (s : SysState) : SysState :=
  let p := match msg with
    | some m => mapInsert key m s.progress
    | none => mapErase key s.progress
  { s with progress := p, lastPush := some (p, s.db) }

/-- `StateManager::on_db_change`: push the current full snapshot. -/
def onDbChange (s : SysState) : SysState :=
  { s with lastPush := some (s.progress, s.db) }

/-- A successful `remove_dir_all` on `path`. -/
def recordRemoveDir (path : String) (s : SysState) : SysState :=
  { s with removedDirs := path :: s.removedDirs }

/-! ## Lifecycle pipelines (`crates/grove-api/src/routes.rs`)

Each fallible external call (filesystem, git subprocess, network) draws its
outcome from a pipeline-specific environment record of success flags.
Best-effort calls — whose errors the source only logs — have no flag, since
neither outcome affects the modelled state.  Pipeline bodies with early
`return`/`?` exits are written in the `Except` monad: `.error s` carries the
state at the moment of the failure into the caller's recovery code. -/

/-- A `GitStatus` value (`GitOps::get_status` result). -/
structure GitStatusResult where
  head : Option String
  commitMessage : Option String
  dirty : Bool
  ahead : Int
  behind : Int
deriving DecidableEq, Repr

/-- Propagation of a fallible step: keep going on success, abort with the
current state on failure (the `?` operator). -/
def chk (ok : Bool) (s : SysState) : Except SysState SysState :=
  if ok then .ok s else .error s

/-- Outcome environment of the clone pipeline. -/
structure CloneEnv where
  now : Nat
  dirExists : Bool
  removeExistingOk : Bool
  createDirOk : Bool
  cloneOk : Bool
  writePointerOk : Bool
  configOk : Bool
  fetchOk : Bool
  detectedBranch : Option String
  createWorktreeOk : Bool
  managers : List (String × Bool)
  statusOk : Bool
  status : GitStatusResult
  dirExistsCleanup : Bool
  removeCleanupOk : Bool

/-- The dependency-install loop of the clone pipeline (step 8 of `do_clone`):
per detected manager, progress is set, and an install failure only downgrades
the progress text to a warning. -/
def installPassClone (key : String) (managers : List (String × Bool))
    (s : SysState) : SysState :=
  managers.foldl (fun s pm =>
    let s := setProgress key (some ("Installing (" ++ pm.1 ++ ")...")) s
    if pm.2 then s
    else setProgress key (some ("Warning: " ++ pm.1 ++ " install failed")) s) s

/-- The `result` closure inside `do_clone`: every step up to the final
progress-clear and push, aborting with the current state on a hard failure. -/
def cloneBody (env : CloneEnv) (repoId localPath : String) (skipInstall : Bool)
    (s0 : SysState) : Except SysState SysState := do
  let mainPath := localPath ++ "/.main"
  let s ← (if env.dirExists then
      let s1 := setProgress repoId (some "Cleaning up existing directory...") s0
      if env.removeExistingOk then Except.ok (recordRemoveDir localPath s1)
      else Except.error s1
    else Except.ok s0)
  let s ← chk env.createDirOk s
  let s := setProgress repoId (some "Cloning repository...") s
  let s ← chk env.cloneOk s
  let s := setProgress repoId (some "Configuring repository...") s
  let s ← chk env.writePointerOk s
  let s ← chk env.configOk s
  let s := setProgress repoId (some "Fetching branches...") s
  let s ← chk env.fetchOk s
  let s := setProgress repoId (some "Detecting default branch...") s
  let defaultBranch := env.detectedBranch.getD "main"
  let db1 := updateRepositoryDefaultBranch repoId defaultBranch s.db
  let s := { s with db := updateRepositorySynced repoId env.now db1 }
  let s := onDbChange s
  let s := setProgress repoId (some "Creating main worktree...") s
  let s := { s with db := insertWorktree mainPath repoId defaultBranch .creating env.now s.db }
  let s := onDbChange s
  -- `git branch -D <default>` before worktree creation is best-effort
  let s ← chk env.createWorktreeOk s
  let s := if skipInstall then s else installPassClone repoId env.managers s
  let s := setProgress repoId (some "Getting status...") s
  let s ← chk env.statusOk s
  let db2 := updateWorktreeStatus mainPath .ready env.status.head env.status.commitMessage s.db
  let db3 := updateWorktreeGitStatus mainPath env.status.dirty env.status.ahead env.status.behind env.now db2
  let s := { s with db := db3 }
  let cfg : ConfigRow :=
    ⟨repoId, some ".env,.env.*,.claude/**", some "", "origin"⟩
  let s := { s with db := upsertWorktreeConfig cfg s.db }
  let s := setProgress repoId none s
  Except.ok (onDbChange s)

/-- `do_clone`: run the body; on a hard failure clear progress, delete the
repository row (cascading), best-effort remove the directory, and push. -/
def do_clone (env : CloneEnv) (repoId localPath : String) (skipInstall : Bool)
    (s0 : SysState) : SysState × Bool :=
  match cloneBody env repoId localPath skipInstall s0 with
  | .ok s => (s, true)
  | .error s =>
    let s := setProgress repoId none s
    let s := { s with db := deleteRepositoryRows repoId s.db }
    let s := if env.dirExistsCleanup then
        (if env.removeCleanupOk then recordRemoveDir localPath s else s)
      else s
    (onDbChange s, false)

/-- Outcome environment of the (synchronous) repository-deletion pipeline. -/
structure DeleteRepoEnv where
  dirExists : Bool
  removeOk : Bool

/-- `delete_repository`: look up the repository (404 on a miss), announce
progress, remove the directory (aborting synchronously on failure), then
delete the rows, clear progress and push. -/
def delete_repository (env : DeleteRepoEnv) (id : String) (s0 : SysState) :
    SysState × Bool :=
  match getRepository id s0.db with
  | none => (s0, false)
  | some repo =>
    let s := setProgress id (some "Deleting...") s0
    let s := onDbChange s
    match (if env.dirExists then
        (if env.removeOk then some (recordRemoveDir repo.localPath s) else none)
      else some s) with
    | none => (s, false)
    | some s =>
      let s := { s with db := deleteRepositoryRows id s.db }
      let s := setProgress id none s
      (onDbChange s, true)

/-- Outcome environment of the worktree-creation pipeline. -/
structure CreateWtEnv where
  now : Nat
  mainManagers : List String
  createOk : Bool
  managers : List String
  statusOk : Bool
  status : GitStatusResult

/-- `sync_main_worktree`: fetch, pull and install in the primary worktree,
every step best-effort (failures are only logged); progress for the
repository is set per step and cleared at the end. -/
def sync_main_worktree (repoId : String) (env : CreateWtEnv) (s : SysState) :
    SysState :=
  let s := setProgress repoId (some "Fetching...") s
  let s := setProgress repoId (some "Pulling main...") s
  let s := env.mainManagers.foldl (fun s pm =>
    setProgress repoId (some ("Installing main (" ++ pm ++ ")...")) s) s
  setProgress repoId none s

/-- `do_create_worktree`: sync the primary worktree, create the git worktree
(hard), share files and install dependencies (best-effort), read git status
(hard), persist it, then clear progress for worktree and repository and
push. -/
def createWorktreeBody (env : CreateWtEnv) (worktreePath repoId : String)
    (skipInstall : Bool) (s0 : SysState) : Except SysState SysState := do
  let s := sync_main_worktree repoId env s0
  let s := setProgress worktreePath (some "Creating worktree...") s
  let s ← chk env.createOk s
  let s := setProgress worktreePath (some "Sharing files...") s
  -- get_worktree_config + share_files: failures only logged, store untouched
  let s := if skipInstall then s else
    env.managers.foldl (fun s pm =>
      setProgress worktreePath (some ("Installing (" ++ pm ++ ")...")) s) s
  let s := setProgress worktreePath (some "Getting status...") s
  let s ← chk env.statusOk s
  let db1 := updateWorktreeStatus worktreePath .ready env.status.head env.status.commitMessage s.db
  let db2 := updateWorktreeGitStatus worktreePath env.status.dirty env.status.ahead env.status.behind env.now db1
  let s := { s with db := db2 }
  let s := setProgress worktreePath none s
  let s := setProgress repoId none s
  Except.ok (onDbChange s)

/-- The worktree-creation pipeline from the provisional write onward: the
handler inserts the row with status `Creating` and pushes, then the detached
task runs `do_create_worktree`; if that fails, the task's recovery sets the
row's status to `Error` and pushes. -/
def create_worktree_pipeline (env : CreateWtEnv) (worktreePath branch repoId : String)
    (skipInstall : Bool) (s0 : SysState) : SysState :=
  let s := { s0 with db := insertWorktree worktreePath repoId branch .creating env.now s0.db }
  let s := onDbChange s
  match createWorktreeBody env worktreePath repoId skipInstall s with
  | .ok s' => s'
  | .error s' =>
    let s' := { s' with db := updateWorktreeStatus worktreePath .error none none s'.db }
    onDbChange s'

/-- Outcome environment of the worktree-deletion pipeline. -/
structure DeleteWtEnv where
  backendRemoveOk : Bool
  dirExists : Bool
  dirRemoveOk : Bool

/-- `delete_worktree`: look up the worktree and its repository (404 on a
miss), set status `Deleting` and push; the detached task then attempts the
backend removal (failure logged) and the directory removal (failure logged),
and deletes the row unconditionally before the final push. -/
def delete_worktree_pipeline (env : DeleteWtEnv) (path : String) (s0 : SysState) :
    SysState × Bool :=
  match getWorktree path s0.db with
  | none => (s0, false)
  | some wt =>
    match getRepository wt.repoId s0.db with
    | none => (s0, false)
    | some _repo =>
      let s := { s0 with db := updateWorktreeStatus path .deleting wt.head wt.commitMessage s0.db }
      let s := onDbChange s
      -- backend `git worktree remove` outcome (env.backendRemoveOk) is ignored
      let s := if env.dirExists then
          (if env.dirRemoveOk then recordRemoveDir path s else s)
        else s
      let s := { s with db := deleteWorktreeRow path s.db }
      (onDbChange s, true)

/-- Outcome environment of the refresh pipeline: `statusResult p = none`
means `get_status` failed for the worktree at `p` (that worktree is
skipped). -/
structure RefreshEnv where
  now : Nat
  fetchOk : Bool
  statusResult : String → Option GitStatusResult

/-- `refresh_repository`: look up the repository (404 on a miss); the
detached task fetches (failure logged), recomputes and persists the status of
every worktree (per-worktree failures skipped), bumps `last_synced`, clears
progress and pushes. -/
def refresh_pipeline (env : RefreshEnv) (id : String) (s0 : SysState) :
    SysState × Bool :=
  match getRepository id s0.db with
  | none => (s0, false)
  | some _repo =>
    let s := setProgress id (some "Fetching...") s0
    let wts := listWorktrees id s.db
    let s := wts.foldl (fun s wt =>
      match env.statusResult wt.path with
      | none => s
      | some st =>
        let db1 := updateWorktreeStatus wt.path .ready st.head st.commitMessage s.db
        let db2 := updateWorktreeGitStatus wt.path st.dirty st.ahead st.behind env.now db1
        { s with db := db2 }) s
    let s := { s with db := updateRepositorySynced id env.now s.db }
    let s := setProgress id none s
    (onDbChange s, true)

/-! ## Smart worktree creation (`GitOps::create_worktree` in grove-core/src/git.rs)

The probe `git rev-parse --verify <ref>` is modelled as membership of the ref
name in the repository's set of refs; the function's effect is the sequence
of git commands it issues. -/

/-- A git command issued by `GitOps::create_worktree`. -/
inductive WtCmd where
  | addCheckout (path branch : List Char) : WtCmd
  | setUpstream (remoteRef branch : List Char) : WtCmd
  | addTrack (branch path remoteRef : List Char) : WtCmd
  | addNewBranch (branch path : List Char) : WtCmd
deriving DecidableEq, Repr

/-- `GitOps::create_worktree`: probe local and remote ref existence, then
(1) local exists — plain checkout plus best-effort upstream when the remote
ref also exists; (2) only the remote exists — new tracking branch; (3)
neither — brand-new branch. -/
def gitCreateWorktree (refs : List (List Char)) (worktreePath branch remote : List Char) :
    List WtCmd :=
  let remoteRef := remote ++ '/' :: branch
  let localExists := refs.contains ("refs/heads/".toList ++ branch)
  let remoteExists := refs.contains ("refs/remotes/".toList ++ remoteRef)
  if localExists then
    WtCmd.addCheckout worktreePath branch ::
      (if remoteExists then [WtCmd.setUpstream remoteRef branch] else [])
  else if remoteExists then
    [WtCmd.addTrack branch worktreePath remoteRef]
  else
    [WtCmd.addNewBranch branch worktreePath]

/-- Under-`.git` in the sense of the specification: a relative path lies
inside the version-control metadata directory when it is the directory itself
or starts with `.git/`. -/
def specUnderGitDir (p : List Char) : Bool :=
  startsWithL ".git/".toList p || p == ".git".toList

/-- The terminal condition the spec's propagation policy demands of a
pipeline run: the triggering resource's key is absent from the progress map,
and the content of the last broadcast is the final full state (so a final
notification reflecting the terminal state was pushed). -/
def endsClear (key : String) (s : SysState) : Prop :=
  s.progress.lookup key = none ∧ s.lastPush = some (s.progress, s.db)

/-- An empty git status result, for concrete instances. -/
def wStatus0 : GitStatusResult :=
  ⟨none, none, false, 0, 0⟩

/-- A concrete repository row used by the concrete pipeline runs below. -/
def cexRepoRow : RepoRow :=
  ⟨"r1", "github", "acme", "widgets", "https://x/acme/widgets.git",
    "/code/acme/widgets", "main", 0, 0⟩

/-- A concrete primary worktree row. -/
def mainWtRow : WorktreeRow :=
  ⟨"/code/acme/widgets/.main", "r1", "main", some "abc", WtStatus.ready,
    some "init", false, 0, 0, 1, 1⟩

/-- A concrete secondary worktree row (deletion target). -/
def featWtRow : WorktreeRow :=
  ⟨"/code/acme/widgets/feat", "r1", "feat", none, WtStatus.ready,
    none, false, 0, 0, 0, 2⟩

/-- A settled system state holding the repository and its primary worktree. -/
def cexState2 : SysState :=
  { db := { repos := [cexRepoRow], worktrees := [mainWtRow], configs := [] },
    progress := [], lastPush := none, removedDirs := [] }

/-- A settled system state that additionally holds the `feat` worktree. -/
def cexState3 : SysState :=
  { db := { repos := [cexRepoRow], worktrees := [mainWtRow, featWtRow], configs := [] },
    progress := [], lastPush := none, removedDirs := [] }

/-- A worktree-creation environment whose backend create-worktree step
fails. -/
def cexCreateEnv : CreateWtEnv :=
  { now := 5, mainManagers := [], createOk := false, managers := [],
    statusOk := true, status := wStatus0 }

/-- A refresh environment in which every per-worktree status read fails. -/
def wRefreshEnv : RefreshEnv :=
  ⟨7, true, fun _ => none⟩

/-- A worktree-deletion environment whose backend removal fails and whose
directory removal also fails. -/
def wDeleteWtEnv : DeleteWtEnv :=
  ⟨false, true, false⟩

/-! ## Basic lemmas about the string model -/

theorem startsWithL_nil_left (s : List Char) : startsWithL [] s = true := by
  cases s <;> rfl

theorem containsSub_nil_left (s : List Char) : containsSub [] s = true := by
  cases s <;> simp [containsSub, startsWithL_nil_left]

theorem startsWithL_append_self (p r : List Char) : startsWithL p (p ++ r) = true := by
  induction p with
  | nil => exact startsWithL_nil_left r
  | cons c cs ih => simpa [startsWithL] using ih

theorem startsWithL_mono {p s : List Char} (r : List Char)
    (h : startsWithL p s = true) : startsWithL p (s ++ r) = true := by
  induction p generalizing s with
  | nil => exact startsWithL_nil_left _
  | cons c cs ih =>
    cases s with
    | nil => simp [startsWithL] at h
    | cons x xs =>
      simp only [startsWithL, Bool.and_eq_true, beq_iff_eq] at h
      simp only [List.cons_append, startsWithL, Bool.and_eq_true, beq_iff_eq]
      exact ⟨h.1, ih h.2⟩

theorem mem_of_startsWithL {x : Char} {xs s : List Char}
    (h : startsWithL (x :: xs) s = true) : x ∈ s := by
  cases s with
  | nil => simp [startsWithL] at h
  | cons c cs =>
    simp only [startsWithL, Bool.and_eq_true, beq_iff_eq] at h
    simp [h.1]

theorem mem_of_containsSub {x : Char} {xs s : List Char}
    (h : containsSub (x :: xs) s = true) : x ∈ s := by
  induction s with
  | nil => simp [containsSub] at h
  | cons c cs ih =>
    simp only [containsSub, Bool.or_eq_true] at h
    rcases h with h | h
    · exact mem_of_startsWithL h
    · exact List.mem_cons_of_mem _ (ih h)

theorem containsSub_mono {pat s : List Char} (r : List Char)
    (h : containsSub pat s = true) : containsSub pat (s ++ r) = true := by
  induction s with
  | nil =>
    have hp : pat = [] := by simpa [containsSub, List.isEmpty_iff] using h
    subst hp
    exact containsSub_nil_left r
  | cons c cs ih =>
    simp only [containsSub, Bool.or_eq_true] at h
    simp only [List.cons_append, containsSub, Bool.or_eq_true]
    rcases h with h | h
    · exact Or.inl (startsWithL_mono r h)
    · exact Or.inr (ih h)

theorem splitFuel_singleton_length (x : Char) :
    ∀ (fuel : Nat) (s acc : List Char), s.length ≤ fuel →
      (splitFuel [x] fuel acc s).length = s.count x + 1 := by
  intro fuel
  induction fuel with
  | zero =>
    intro s acc hs
    have : s = [] := List.length_eq_zero.mp (Nat.le_zero.mp hs)
    subst this
    simp [splitFuel]
  | succ fuel ih =>
    intro s acc hs
    cases s with
    | nil => simp [splitFuel]
    | cons c cs =>
      rw [splitFuel]
      by_cases hx : x = c
      · subst hx
        rw [if_pos (by simp [startsWithL])]
        have hlen : cs.length ≤ fuel := by
          simpa [Nat.succ_le_succ_iff] using hs
        simp [ih cs [] hlen, List.count_cons]
      · rw [if_neg (by simp [startsWithL]; intro h; exact hx h)]
        have hlen : cs.length ≤ fuel := by
          simpa [Nat.succ_le_succ_iff] using hs
        simp [ih cs (c :: acc) hlen, List.count_cons, Ne.symm hx]

theorem splitSub_singleton_length (x : Char) (s : List Char) :
    (splitSub [x] s).length = s.count x + 1 :=
  splitFuel_singleton_length x s.length s [] (Nat.le_refl _)

/-! ## Claim C1: the sanitizer can emit `..`

The branch name `". ."` (dot, space, dot) is a valid branch name (non-empty,
not all dots).  It contains no `..` substring, so the `..`-to-`__`
replacement leaves it unchanged; the final character filter then deletes the
space and glues the two dots together, producing the directory name `..` —
exactly the traversal component the function's own documentation says it
prevents. -/

/-- C1: evaluated at the failing input, `sanitize_branch_name ". ." "main"`
returns `..`, a name that both contains the substring `..` and consists of
characters outside no class — contradicting the claimed guarantee that a
sanitized valid branch name never contains `..`. -/
theorem sanitize_dotdot_escape :
    sanitize_branch_name ". .".toList "main".toList = "..".toList ∧
    containsSub "..".toList (sanitize_branch_name ". .".toList "main".toList) = true ∧
    ". .".toList ≠ [] ∧ ¬ (∀ c ∈ ". .".toList, c = '.') := by
  refine ⟨by decide, by decide, by decide, by decide⟩

/-! ## Claims C3 and C9: `glob_match` -/

/-- C3 counterexample: the pattern `a*b` (exactly one `*`, no `**`) matches
the path `a/b`, although the only decomposition of `a/b` into the literal
prefix `a`, a middle part, and the literal suffix `b` forces the middle part
to contain the separator `/` — so the claimed "never crossing a `/`"
single-segment semantics is violated by the code. -/
theorem glob_match_slash_crossing_cex :
    glob_match "a*b".toList "a/b".toList = true ∧
    (∀ mid : List Char, "a".toList ++ mid ++ "b".toList = "a/b".toList → '/' ∈ mid) := by
  refine ⟨by decide, ?_⟩
  intro mid h
  have h' : 'a' :: (mid ++ ['b']) = ['a', '/', 'b'] := h
  rcases mid with _ | ⟨x, mid'⟩
  · simp at h'
  · simp only [List.cons_append, List.cons.injEq] at h'
    obtain ⟨-, hx, -⟩ := h'
    simp [hx]

/-- C3 (amended): characterization of `glob_match` as implemented.  A pattern
that splits in exactly two around a single `*` (and has no `**`) matches any
path that starts with the literal prefix and ends with the literal suffix —
the wildcard may cross `/` separators and prefix and suffix may overlap.  A
pattern that splits in exactly two around `**` matches any path that starts
with the `/`-trimmed prefix and ends with the `/`-trimmed suffix.  A pattern
containing no `*` at all matches exactly itself. -/
theorem glob_match_characterization :
    (∀ pattern path p0 p1 : List Char,
        containsSub "**".toList pattern = false →
        splitSub ['*'] pattern = [p0, p1] →
        glob_match pattern path = (startsWithL p0 path && endsWithL p1 path)) ∧
    (∀ pattern path p0 p1 : List Char,
        containsSub "**".toList pattern = true →
        splitSub "**".toList pattern = [p0, p1] →
        glob_match pattern path =
          (((trimEndChar '/' p0).isEmpty || startsWithL (trimEndChar '/' p0) path) &&
           ((trimStartChar '/' p1).isEmpty || endsWithL (trimStartChar '/' p1) path))) ∧
    (∀ pattern path : List Char,
        pattern.contains '*' = false →
        (glob_match pattern path = true ↔ pattern = path)) := by
  refine ⟨?_, ?_, ?_⟩
  · intro pattern path p0 p1 hdd hsp
    have hdd' : containsSub ['*', '*'] pattern = false := hdd
    have hsp' : splitFuel ['*'] pattern.length [] pattern = [p0, p1] := hsp
    have hlen : (splitSub ['*'] pattern).length = pattern.count '*' + 1 :=
      splitSub_singleton_length _ _
    rw [hsp] at hlen
    have hmem : '*' ∈ pattern := by
      have h2 : 0 < pattern.count '*' := by simp at hlen; omega
      exact List.count_pos_iff.mp h2
    simp [glob_match, hdd', glob_match.glob_match_star, hmem, splitSub, hsp']
  · intro pattern path p0 p1 hdd hsp
    have hdd' : containsSub ['*', '*'] pattern = true := hdd
    have hsp' : splitFuel ['*', '*'] pattern.length [] pattern = [p0, p1] := hsp
    simp [glob_match, hdd', splitSub, hsp']
  · intro pattern path hstar
    have hnot : ¬ ('*' ∈ pattern) := by
      intro hm
      have hc : pattern.contains '*' = true := List.elem_iff.mpr hm
      rw [hstar] at hc
      cases hc
    have hdd : containsSub ['*', '*'] pattern = false := by
      cases hc : containsSub ['*', '*'] pattern with
      | false => rfl
      | true => exact absurd (mem_of_containsSub hc) hnot
    simp [glob_match, hdd, glob_match.glob_match_star, hnot, beq_iff_eq]

/-- C3 witness: the single-`*` characterization instantiated on the pattern
`a*b` and the path `aXb`. -/
theorem glob_match_characterization_witness :
    glob_match "a*b".toList "aXb".toList =
      (startsWithL "a".toList "aXb".toList && endsWithL "b".toList "aXb".toList) :=
  glob_match_characterization.1 _ _ "a".toList "b".toList (by decide) (by decide)

/-- C9: a pattern with two or more `*` but no `**` splits around `*` into
three or more parts, so `glob_match` falls through both wildcard branches and
degenerates to an exact string comparison. -/
theorem glob_match_multi_star_exact :
    ∀ (pattern path : List Char), 2 ≤ pattern.count '*' →
      containsSub "**".toList pattern = false →
      (glob_match pattern path = true ↔ pattern = path) := by
  intro pattern path hcount hdd
  have hdd' : containsSub ['*', '*'] pattern = false := hdd
  have hlen : (splitSub ['*'] pattern).length = pattern.count '*' + 1 :=
    splitSub_singleton_length _ _
  have hmem : '*' ∈ pattern := by
    have h2 : 0 < pattern.count '*' := by omega
    exact List.count_pos_iff.mp h2
  rcases hsp : splitSub ['*'] pattern with _ | ⟨a, _ | ⟨b, _ | ⟨c, l⟩⟩⟩ <;>
    rw [hsp] at hlen <;>
    simp only [List.length_nil, List.length_cons] at hlen
  · omega
  · omega
  · omega
  · have hsp' : splitFuel ['*'] pattern.length [] pattern = a :: b :: c :: l := hsp
    simp [glob_match, hdd', glob_match.glob_match_star, hmem, splitSub, hsp', beq_iff_eq]

/-- C9 witness: the pattern `*.env.*` matches only the literal path
`*.env.*`; in particular it fails on `x.env.y`. -/
theorem glob_match_multi_star_exact_witness :
    (glob_match "*.env.*".toList "x.env.y".toList = true ↔
      "*.env.*".toList = "x.env.y".toList) :=
  glob_match_multi_star_exact _ _ (by decide) (by decide)

/-! ## Claim C4: what `collect_files` enumerates -/

theorem mem_allFilesUnder_shape :
    ∀ (t : FsEntries) (pre p : List Char), p ∈ allFilesUnder pre t →
      pre = [] ∨ ∃ suf, p = pre ++ suf := by
  intro t
  induction t with
  | nil => intro pre p h; simp [allFilesUnder] at h
  | file name rest ih =>
    intro pre p h
    simp only [allFilesUnder, List.mem_cons] at h
    rcases h with h | h
    · by_cases hpre : pre = []
      · exact Or.inl hpre
      · refine Or.inr ⟨'/' :: name, ?_⟩
        rw [h]
        simp [relPath, hpre]
    · exact ih pre p h
  | dir name sub rest ihsub ihrest =>
    intro pre p h
    simp only [allFilesUnder, List.mem_append] at h
    rcases h with h | h
    · by_cases hpre : pre = []
      · exact Or.inl hpre
      · rcases ihsub (relPath pre name) p h with h1 | ⟨suf, hsuf⟩
        · exfalso
          rw [relPath, if_neg (by simpa [List.isEmpty_iff] using hpre)] at h1
          exact hpre (List.append_eq_nil.mp h1).1
        · refine Or.inr ⟨'/' :: name ++ suf, ?_⟩
          rw [hsuf]
          simp [relPath, hpre]
    · exact ihrest pre p h

/-- C4 (amended): `collect_files` enumerates exactly the regular files of the
source tree whose root-relative path does not contain the substring `.git`
anywhere — not just those outside the `.git` metadata directory. -/
theorem collect_files_eq_filter :
    ∀ (t : FsEntries) (pre : List Char),
      collect_files pre t =
        (allFilesUnder pre t).filter (fun p => !(containsSub ".git".toList p)) := by
  intro t
  induction t with
  | nil => intro pre; rfl
  | file name rest ih =>
    intro pre
    simp only [collect_files, allFilesUnder, List.filter_cons]
    by_cases hg : containsSub ['.', 'g', 'i', 't'] (relPath pre name) = true
    · simp [hg, ih]
    · simp only [Bool.not_eq_true] at hg
      simp [hg, ih]
  | dir name sub rest ihsub ihrest =>
    intro pre
    simp only [collect_files, allFilesUnder, List.filter_append]
    by_cases hg : containsSub ['.', 'g', 'i', 't'] (relPath pre name) = true
    · have hnil : (allFilesUnder (relPath pre name) sub).filter
          (fun p => !(containsSub ['.', 'g', 'i', 't'] p)) = [] := by
        rw [List.filter_eq_nil_iff]
        intro p hp
        rcases mem_allFilesUnder_shape sub (relPath pre name) p hp with h1 | ⟨suf, hsuf⟩
        · rw [h1] at hg
          simp [containsSub] at hg
        · rw [hsuf]
          have := @containsSub_mono ['.', 'g', 'i', 't'] _ suf hg
          simp [this]
      simp [hg, hnil, ihrest]
    · simp only [Bool.not_eq_true] at hg
      simp [hg, ihsub, ihrest]

/-- C4 counterexample: a source tree holding the single regular file
`.gitignore`.  That file does not lie under the `.git` metadata directory,
yet `collect_files` enumerates nothing, because the exclusion is a substring
test on `.git`, not a directory test. -/
theorem collect_files_gitignore_cex :
    collect_files [] (FsEntries.file ".gitignore".toList FsEntries.nil) = [] ∧
    allFilesUnder [] (FsEntries.file ".gitignore".toList FsEntries.nil) =
      [".gitignore".toList] ∧
    specUnderGitDir ".gitignore".toList = false := by
  refine ⟨by decide, by decide, by decide⟩

/-! ## Claim C5: idempotence of the file sharing engine -/

theorem mkDirAll_cons (d : List Char) (ds : List (List Char)) (t : TargetFs) :
    mkDirAll (d :: ds) t =
      mkDirAll ds (if (t.lookup d).isSome then t else (d, TargetEntry.dirMade) :: t) :=
  rfl

theorem lookup_mkDirAll_preserve (ds : List (List Char)) (t : TargetFs)
    (p : List Char) (e : TargetEntry) (h : t.lookup p = some e) :
    (mkDirAll ds t).lookup p = some e := by
  induction ds generalizing t with
  | nil => exact h
  | cons d ds ih =>
    rw [mkDirAll_cons]
    by_cases hd : (t.lookup d).isSome
    · rw [if_pos hd]; exact ih t h
    · rw [if_neg hd]
      apply ih
      have hbd : (p == d) = false := by
        rw [beq_eq_false_iff_ne]
        intro hb
        subst hb
        rw [h] at hd
        simp at hd
      simp [List.lookup, hbd, h]

theorem shareStep_preserve (src : List Char) (sp cp : List (List Char))
    (t : TargetFs) (f p : List Char) (e : TargetEntry) (h : t.lookup p = some e) :
    (shareStep src sp cp t f).lookup p = some e := by
  unfold shareStep
  dsimp only
  split
  · exact h
  · split
    · exact h
    · rename_i hmatch hsome
      have hpf : (p == f) = false := by
        rw [beq_eq_false_iff_ne]
        intro hb
        subst hb
        rw [h] at hsome
        simp at hsome
      have hmk := lookup_mkDirAll_preserve (parentDirs f) t p e h
      split <;> simp [List.lookup, hpf, hmk]

theorem shareFold_preserve (src : List Char) (sp cp : List (List Char))
    (files : List (List Char)) :
    ∀ (t : TargetFs) (p : List Char) (e : TargetEntry), t.lookup p = some e →
      ((files.foldl (shareStep src sp cp) t).lookup p = some e) := by
  induction files with
  | nil => intro t p e h; exact h
  | cons g files ih =>
    intro t p e h
    simp only [List.foldl_cons]
    exact ih _ p e (shareStep_preserve src sp cp t g p e h)

theorem shareStep_of_some (src : List Char) (sp cp : List (List Char))
    (t : TargetFs) (f : List Char) (h : (t.lookup f).isSome = true) :
    shareStep src sp cp t f = t := by
  unfold shareStep
  dsimp only
  simp [h]

theorem shareStep_of_unmatched (src : List Char) (sp cp : List (List Char))
    (t : TargetFs) (f : List Char)
    (h : (sp.any (fun q => glob_match q f) || cp.any (fun q => glob_match q f)) = false) :
    shareStep src sp cp t f = t := by
  have h1 : sp.any (fun q => glob_match q f) = false := by
    cases hc : sp.any (fun q => glob_match q f) with
    | false => rfl
    | true => rw [hc] at h; simp at h
  have h2 : cp.any (fun q => glob_match q f) = false := by
    cases hc : cp.any (fun q => glob_match q f) with
    | false => rfl
    | true => rw [hc] at h; simp at h
  unfold shareStep
  dsimp only
  simp [h1, h2]

theorem shareFold_covers (src : List Char) (sp cp : List (List Char))
    (files : List (List Char)) :
    ∀ (t : TargetFs) (f : List Char), f ∈ files →
      (sp.any (fun q => glob_match q f) || cp.any (fun q => glob_match q f)) = true →
      ((files.foldl (shareStep src sp cp) t).lookup f).isSome = true := by
  induction files with
  | nil => intro t f hf; simp at hf
  | cons g files ih =>
    intro t f hf hmatch
    simp only [List.foldl_cons]
    rcases List.mem_cons.mp hf with rfl | hf'
    · have h1 : ((shareStep src sp cp t f).lookup f).isSome = true := by
        unfold shareStep
        dsimp only
        split
        · rename_i hno
          exfalso
          rcases Bool.or_eq_true_iff.mp hmatch with hm | hm <;> simp [hm] at hno
        · split
          · assumption
          · split <;> simp [List.lookup]
      obtain ⟨e, he⟩ := Option.isSome_iff_exists.mp h1
      have := shareFold_preserve src sp cp files _ f e he
      simp [this]
    · exact ih _ f hf' hmatch

theorem foldl_noop {α β : Type} (g : α → β → α) (r : α) (l : List β)
    (h : ∀ b ∈ l, g r b = r) : l.foldl g r = r := by
  induction l with
  | nil => rfl
  | cons b l ih =>
    simp only [List.foldl_cons, h b (List.mem_cons_self b l)]
    exact ih (fun x hx => h x (List.mem_cons_of_mem b hx))

/-- C5: the file sharing engine is idempotent — a second run with identical
inputs leaves the target tree produced by the first run unchanged — and a
target path that already exists is never overwritten. -/
theorem share_files_idempotent :
    ∀ (source : List Char) (srcTree : FsEntries) (t : TargetFs)
      (symlink_patterns copy_patterns : List (List Char)),
      share_files source srcTree
          (share_files source srcTree t symlink_patterns copy_patterns)
          symlink_patterns copy_patterns =
        share_files source srcTree t symlink_patterns copy_patterns ∧
      (∀ (p : List Char) (e : TargetEntry), t.lookup p = some e →
        (share_files source srcTree t symlink_patterns copy_patterns).lookup p = some e) := by
  intro src tree t sp cp
  constructor
  · unfold share_files
    apply foldl_noop
    intro f hf
    cases hm : (sp.any (fun q => glob_match q f) || cp.any (fun q => glob_match q f)) with
    | false => exact shareStep_of_unmatched src sp cp _ f hm
    | true =>
      exact shareStep_of_some src sp cp _ f
        (shareFold_covers src sp cp (collect_files [] tree) t f hf hm)
  · intro p e h
    exact shareFold_preserve src sp cp (collect_files [] tree) t p e h

/-- C5 witness: the idempotence theorem instantiated on a one-file source
tree sharing `.env` by symlink into a target that already holds `keep`. -/
theorem share_files_idempotent_witness :
    share_files "/src".toList (FsEntries.file ".env".toList FsEntries.nil)
        (share_files "/src".toList (FsEntries.file ".env".toList FsEntries.nil)
          [("keep".toList, TargetEntry.preexisting)] [".env".toList] [])
        [".env".toList] [] =
      share_files "/src".toList (FsEntries.file ".env".toList FsEntries.nil)
        [("keep".toList, TargetEntry.preexisting)] [".env".toList] [] ∧
    (share_files "/src".toList (FsEntries.file ".env".toList FsEntries.nil)
        [("keep".toList, TargetEntry.preexisting)] [".env".toList] []).lookup
      "keep".toList = some TargetEntry.preexisting :=
  ⟨(share_files_idempotent "/src".toList (FsEntries.file ".env".toList FsEntries.nil)
      [("keep".toList, TargetEntry.preexisting)] [".env".toList] []).1,
   (share_files_idempotent "/src".toList (FsEntries.file ".env".toList FsEntries.nil)
      [("keep".toList, TargetEntry.preexisting)] [".env".toList] []).2
     "keep".toList TargetEntry.preexisting (by decide)⟩

/-! ## Claim C10: `parse_git_url` on deep paths -/

theorem stripPrefixSub_append (p r : List Char) : stripPrefixSub p (p ++ r) = some r := by
  unfold stripPrefixSub
  rw [if_pos (startsWithL_append_self p r)]
  rw [List.drop_left p r]

theorem splitn2Aux_not_mem (c : Char) (s : List Char) (hc : c ∉ s) :
    ∀ acc, splitn2Aux c acc s = [acc.reverse ++ s] := by
  induction s with
  | nil => intro acc; simp [splitn2Aux]
  | cons x xs ih =>
    intro acc
    have hx : (x == c) = false := by
      rw [beq_eq_false_iff_ne]
      intro he
      exact hc (he ▸ List.mem_cons_self x xs)
    have hc' : c ∉ xs := fun hm => hc (List.mem_cons_of_mem x hm)
    simp [splitn2Aux, hx, ih hc']

theorem splitn2Aux_mem (c : Char) (l1 l2 : List Char) (hc : c ∉ l1) :
    ∀ acc, splitn2Aux c acc (l1 ++ c :: l2) = [acc.reverse ++ l1, l2] := by
  induction l1 with
  | nil => intro acc; simp [splitn2Aux]
  | cons x xs ih =>
    intro acc
    have hx : (x == c) = false := by
      rw [beq_eq_false_iff_ne]
      intro he
      exact hc (he ▸ List.mem_cons_self x xs)
    have hc' : c ∉ xs := fun hm => hc (List.mem_cons_of_mem x hm)
    simp [splitn2Aux, hx, ih hc']

theorem splitn2_spec (c : Char) (l1 l2 : List Char) (hc : c ∉ l1) :
    splitn2 c (l1 ++ c :: l2) = [l1, l2] := by
  simpa using splitn2Aux_mem c l1 l2 hc []

theorem endsWithL_append_self (p s : List Char) : endsWithL p (s ++ p) = true := by
  unfold endsWithL
  rw [List.reverse_append]
  exact startsWithL_append_self _ _

theorem trimEndFuel_of_not_ends (pat : List Char) (fuel : Nat) (s : List Char)
    (h : endsWithL pat s = false) : trimEndFuel pat fuel s = s := by
  cases fuel with
  | zero => rfl
  | succ f =>
    rw [trimEndFuel, if_neg]
    intro hcond
    rw [hcond.2.1] at h
    cases h

theorem trimEndMatches_strip_git (s : List Char)
    (h : endsWithL ".git".toList s = false) :
    trimEndMatches ".git".toList (s ++ ".git".toList) = s := by
  unfold trimEndMatches
  have hlen : (s ++ ".git".toList).length = s.length + 3 + 1 := by simp
  rw [hlen, trimEndFuel, if_pos]
  · have htake : (s ++ ".git".toList).length - (".git".toList).length = s.length := by
      simp
    rw [htake, List.take_left]
    exact trimEndFuel_of_not_ends _ _ _ h
  · refine ⟨by decide, endsWithL_append_self _ _, ?_⟩
    simp

theorem takeWhile_no_slash (host rest : List Char) (h : '/' ∉ host) :
    (host ++ '/' :: rest).takeWhile (fun c => c != '/') = host ∧
    (host ++ '/' :: rest).dropWhile (fun c => c != '/') = '/' :: rest := by
  induction host with
  | nil => simp
  | cons x xs ih =>
    have hxne : x ≠ '/' := by
      intro he
      exact h (he ▸ List.mem_cons_self x xs)
    have h' : '/' ∉ xs := fun hm => h (List.mem_cons_of_mem x hm)
    obtain ⟨ih1, ih2⟩ := ih h'
    simp [List.takeWhile_cons, List.dropWhile_cons, hxne, ih1, ih2]

theorem trimStartChar_slash (a rest : List Char) (ha_ne : a ≠ []) (ha : '/' ∉ a) :
    trimStartChar '/' ('/' :: (a ++ rest)) = a ++ rest := by
  cases a with
  | nil => exact absurd rfl ha_ne
  | cons x xs =>
    have hx : (x == '/') = false := by
      rw [beq_eq_false_iff_ne]
      intro he
      exact ha (he ▸ List.mem_cons_self x xs)
    simp [trimStartChar, List.dropWhile_cons, hx]

/-- C10: for URLs whose path part has three (or more) segments, both the SSH
and the HTTPS branch of `parse_git_url` succeed, returning the first path
segment as the owner and the whole remainder — a string still containing
`/` — as the repository name. -/
theorem parse_git_url_deep_path
    (host a b c : List Char)
    (hhost_ne : host ≠ [])
    (hhc : ':' ∉ host) (hhs : '/' ∉ host)
    (ha_ne : a ≠ []) (ha : '/' ∉ a)
    (hgit : endsWithL ".git".toList (a ++ ('/' :: (b ++ ('/' :: c)))) = false) :
    parse_git_url
        ("git@".toList ++ (host ++ (':' :: (a ++ ('/' :: (b ++ ('/' :: (c ++ ".git".toList)))))))) =
      some ⟨extract_provider host, a, b ++ ('/' :: c),
        "git@".toList ++ (host ++ (':' :: (a ++ ('/' :: (b ++ ('/' :: (c ++ ".git".toList)))))))⟩ ∧
    parse_git_url
        ("https://".toList ++ (host ++ ('/' :: (a ++ ('/' :: (b ++ ('/' :: (c ++ ".git".toList)))))))) =
      some ⟨extract_provider host, a, b ++ ('/' :: c),
        "https://".toList ++ (host ++ ('/' :: (a ++ ('/' :: (b ++ ('/' :: (c ++ ".git".toList)))))))⟩ ∧
    '/' ∈ b ++ ('/' :: c) := by
  have hX : a ++ ('/' :: (b ++ ('/' :: (c ++ ".git".toList)))) =
      (a ++ ('/' :: (b ++ ('/' :: c)))) ++ ".git".toList := by
    simp [List.append_assoc]
  have htrim : trimEndMatches ".git".toList
      (a ++ ('/' :: (b ++ ('/' :: (c ++ ".git".toList))))) =
      a ++ ('/' :: (b ++ ('/' :: c))) := by
    rw [hX]
    exact trimEndMatches_strip_git _ hgit
  have hsplit : splitn2 '/' (a ++ ('/' :: (b ++ ('/' :: c)))) = [a, b ++ ('/' :: c)] :=
    splitn2_spec '/' a (b ++ ('/' :: c)) ha
  have hsplitc : splitn2 ':'
      (host ++ (':' :: (a ++ ('/' :: (b ++ ('/' :: (c ++ ".git".toList))))))) =
      [host, a ++ ('/' :: (b ++ ('/' :: (c ++ ".git".toList))))] :=
    splitn2_spec ':' host _ hhc
  refine ⟨?_, ?_, by simp⟩
  · have hstrip : stripPrefixSub "git@".toList
        ("git@".toList ++ (host ++ (':' :: (a ++ ('/' :: (b ++ ('/' :: (c ++ ".git".toList)))))))) =
        some (host ++ (':' :: (a ++ ('/' :: (b ++ ('/' :: (c ++ ".git".toList))))))) :=
      stripPrefixSub_append _ _
    rw [parse_git_url, sshGitUrl, hstrip]
    dsimp only
    rw [hsplitc]
    dsimp only
    rw [htrim, hsplit]
  · have hg4 : startsWithL "git@".toList
        ("https://".toList ++ (host ++ ('/' :: (a ++ ('/' :: (b ++ ('/' :: (c ++ ".git".toList)))))))) =
        false := rfl
    have hssh : sshGitUrl
        ("https://".toList ++ (host ++ ('/' :: (a ++ ('/' :: (b ++ ('/' :: (c ++ ".git".toList)))))))) =
        none := by
      rw [sshGitUrl, stripPrefixSub]
      rw [if_neg]
      intro hcond
      rw [hg4] at hcond
      cases hcond
    have hsw : startsWithL "https://".toList
        ("https://".toList ++ (host ++ ('/' :: (a ++ ('/' :: (b ++ ('/' :: (c ++ ".git".toList)))))))) =
        true :=
      startsWithL_append_self _ _
    have hstrip2 : stripPrefixSub "https://".toList
        ("https://".toList ++ (host ++ ('/' :: (a ++ ('/' :: (b ++ ('/' :: (c ++ ".git".toList)))))))) =
        some (host ++ ('/' :: (a ++ ('/' :: (b ++ ('/' :: (c ++ ".git".toList))))))) :=
      stripPrefixSub_append _ _
    obtain ⟨htw, hdw⟩ :=
      takeWhile_no_slash host (a ++ ('/' :: (b ++ ('/' :: (c ++ ".git".toList))))) hhs
    have hempty : host.isEmpty = false := by
      cases host with
      | nil => exact absurd rfl hhost_ne
      | cons x xs => rfl
    have hts : trimStartChar '/' ('/' :: (a ++ ('/' :: (b ++ ('/' :: (c ++ ".git".toList)))))) =
        a ++ ('/' :: (b ++ ('/' :: (c ++ ".git".toList)))) :=
      trimStartChar_slash a ('/' :: (b ++ ('/' :: (c ++ ".git".toList)))) ha_ne ha
    rw [parse_git_url, hssh, httpsGitUrl, if_pos]
    · rw [urlHostPath, hstrip2]
      dsimp only
      rw [htw, hdw, hempty, if_neg Bool.false_ne_true]
      dsimp only
      rw [hts, htrim, hsplit]
    · rw [hsw]
      simp

/-- C10 witness: the deep-path theorem instantiated on
`git@example.com:team/group/repo.git` and
`https://example.com/team/group/repo.git`. -/
theorem parse_git_url_deep_path_witness :
    parse_git_url
        ("git@".toList ++ ("example.com".toList ++ (':' :: ("team".toList ++
          ('/' :: ("group".toList ++ ('/' :: ("repo".toList ++ ".git".toList)))))))) =
      some ⟨extract_provider "example.com".toList, "team".toList,
        "group".toList ++ ('/' :: "repo".toList),
        "git@".toList ++ ("example.com".toList ++ (':' :: ("team".toList ++
          ('/' :: ("group".toList ++ ('/' :: ("repo".toList ++ ".git".toList)))))))⟩ ∧
    parse_git_url
        ("https://".toList ++ ("example.com".toList ++ ('/' :: ("team".toList ++
          ('/' :: ("group".toList ++ ('/' :: ("repo".toList ++ ".git".toList)))))))) =
      some ⟨extract_provider "example.com".toList, "team".toList,
        "group".toList ++ ('/' :: "repo".toList),
        "https://".toList ++ ("example.com".toList ++ ('/' :: ("team".toList ++
          ('/' :: ("group".toList ++ ('/' :: ("repo".toList ++ ".git".toList)))))))⟩ ∧
    '/' ∈ "group".toList ++ ('/' :: "repo".toList) :=
  parse_git_url_deep_path "example.com".toList "team".toList "group".toList "repo".toList
    (by decide) (by decide) (by decide) (by decide) (by decide) (by decide)

/-! ## Claim C8: smart worktree creation case selection -/

/-- C8: `GitOps::create_worktree` selects exactly one of three cases by
probing ref existence, in order.  If the local branch ref exists it checks
the branch out and then (best-effort) sets its upstream exactly when the
matching remote ref also exists; otherwise, if the remote tracking ref
exists, it creates a new local branch tracking it; otherwise it creates a
brand-new branch with no upstream. -/
theorem gitCreateWorktree_cases :
    ∀ (refs : List (List Char)) (path branch remote : List Char),
      (("refs/heads/".toList ++ branch) ∈ refs →
        gitCreateWorktree refs path branch remote =
          WtCmd.addCheckout path branch ::
            (if ("refs/remotes/".toList ++ (remote ++ '/' :: branch)) ∈ refs
             then [WtCmd.setUpstream (remote ++ '/' :: branch) branch] else [])) ∧
      (("refs/heads/".toList ++ branch) ∉ refs →
        ("refs/remotes/".toList ++ (remote ++ '/' :: branch)) ∈ refs →
        gitCreateWorktree refs path branch remote =
          [WtCmd.addTrack branch path (remote ++ '/' :: branch)]) ∧
      (("refs/heads/".toList ++ branch) ∉ refs →
        ("refs/remotes/".toList ++ (remote ++ '/' :: branch)) ∉ refs →
        gitCreateWorktree refs path branch remote = [WtCmd.addNewBranch branch path]) := by
  intro refs path branch remote
  refine ⟨?_, ?_, ?_⟩
  · intro hl
    have hl' : refs.contains ("refs/heads/".toList ++ branch) = true :=
      List.elem_iff.mpr hl
    unfold gitCreateWorktree
    dsimp only
    rw [if_pos hl']
    by_cases hr : ("refs/remotes/".toList ++ (remote ++ '/' :: branch)) ∈ refs
    · have hr' : refs.contains ("refs/remotes/".toList ++ (remote ++ '/' :: branch)) = true :=
        List.elem_iff.mpr hr
      rw [if_pos hr', if_pos hr]
    · have hr' : refs.contains ("refs/remotes/".toList ++ (remote ++ '/' :: branch)) = false := by
        cases hc : refs.contains ("refs/remotes/".toList ++ (remote ++ '/' :: branch)) with
        | false => rfl
        | true => exact absurd (List.elem_iff.mp hc) hr
      rw [if_neg (by rw [hr']; exact Bool.false_ne_true), if_neg hr]
  · intro hl hr
    have hl' : refs.contains ("refs/heads/".toList ++ branch) = false := by
      cases hc : refs.contains ("refs/heads/".toList ++ branch) with
      | false => rfl
      | true => exact absurd (List.elem_iff.mp hc) hl
    have hr' : refs.contains ("refs/remotes/".toList ++ (remote ++ '/' :: branch)) = true :=
      List.elem_iff.mpr hr
    unfold gitCreateWorktree
    dsimp only
    rw [if_neg (by rw [hl']; exact Bool.false_ne_true), if_pos hr']
  · intro hl hr
    have hl' : refs.contains ("refs/heads/".toList ++ branch) = false := by
      cases hc : refs.contains ("refs/heads/".toList ++ branch) with
      | false => rfl
      | true => exact absurd (List.elem_iff.mp hc) hl
    have hr' : refs.contains ("refs/remotes/".toList ++ (remote ++ '/' :: branch)) = false := by
      cases hc : refs.contains ("refs/remotes/".toList ++ (remote ++ '/' :: branch)) with
      | false => rfl
      | true => exact absurd (List.elem_iff.mp hc) hr
    unfold gitCreateWorktree
    dsimp only
    rw [if_neg (by rw [hl']; exact Bool.false_ne_true),
      if_neg (by rw [hr']; exact Bool.false_ne_true)]

/-- C8 witness: a repository that has a local `dev` branch and its
`origin/dev` remote ref — the checkout-plus-upstream case. -/
theorem gitCreateWorktree_cases_witness :
    gitCreateWorktree ["refs/heads/dev".toList, "refs/remotes/origin/dev".toList]
        "/w".toList "dev".toList "origin".toList =
      WtCmd.addCheckout "/w".toList "dev".toList ::
        (if ("refs/remotes/".toList ++ ("origin".toList ++ '/' :: "dev".toList)) ∈
            ["refs/heads/dev".toList, "refs/remotes/origin/dev".toList]
         then [WtCmd.setUpstream ("origin".toList ++ '/' :: "dev".toList) "dev".toList]
         else []) :=
  (gitCreateWorktree_cases ["refs/heads/dev".toList, "refs/remotes/origin/dev".toList]
      "/w".toList "dev".toList "origin".toList).1 (by decide)

/-! ## State, store and `Except` lemmas for the pipeline claims -/

theorem setProgress_db (key : String) (msg : Option String) (s : SysState) :
    (setProgress key msg s).db = s.db := by cases msg <;> rfl

theorem setProgress_removedDirs (key : String) (msg : Option String) (s : SysState) :
    (setProgress key msg s).removedDirs = s.removedDirs := by cases msg <;> rfl

theorem setProgress_some_progress (key m : String) (s : SysState) :
    (setProgress key (some m) s).progress = mapInsert key m s.progress :=
  rfl

theorem lookup_mapErase_self (k : String) (m : List (String × String)) :
    (mapErase k m).lookup k = none := by
  induction m with
  | nil => rfl
  | cons e rest ih =>
    unfold mapErase at ih ⊢
    rw [List.filter_cons]
    by_cases he : (e.1 == k) = true
    · simp only [he, Bool.not_true]
      exact ih
    · have he' : (e.1 == k) = false := by
        cases hb : (e.1 == k) with
        | false => rfl
        | true => exact absurd hb he
      have hke : (k == e.1) = false := by
        rw [beq_eq_false_iff_ne] at he' ⊢
        exact fun hq => he' hq.symm
      simp only [he', Bool.not_false, if_pos]
      cases e with
      | mk e1 e2 => simp only [List.lookup, hke]; exact ih

theorem lookup_mapErase_none (k k' : String) (m : List (String × String))
    (h : m.lookup k = none) : (mapErase k' m).lookup k = none := by
  induction m with
  | nil => rfl
  | cons e rest ih =>
    obtain ⟨e1, e2⟩ := e
    have hke : (k == e1) = false := by
      cases hb : (k == e1) with
      | false => rfl
      | true => simp [List.lookup, hb] at h
    have hrest : rest.lookup k = none := by
      simpa [List.lookup, hke] using h
    unfold mapErase
    rw [List.filter_cons]
    by_cases hk2 : (e1 == k') = true
    · simp only [hk2, Bool.not_true, Bool.false_eq_true, if_false]
      exact ih hrest
    · have hk2f : (e1 == k') = false := by
        cases hb : (e1 == k') with
        | false => rfl
        | true => exact absurd hb hk2
      simp only [hk2f, Bool.not_false, if_true]
      simp only [List.lookup, hke]
      exact ih hrest

theorem lookup_mapInsert_self (k v : String) (m : List (String × String)) :
    (mapInsert k v m).lookup k = some v := by
  simp [mapInsert, List.lookup]

theorem lookup_setProgress_none (key : String) (s : SysState) :
    (setProgress key none s).progress.lookup key = none :=
  lookup_mapErase_self key s.progress

theorem endsClear_onDbChange (key : String) (t : SysState)
    (h : t.progress.lookup key = none) : endsClear key (onDbChange t) :=
  ⟨h, rfl⟩

theorem foldl_db_eq {β : Type} (g : SysState → β → SysState)
    (hg : ∀ s b, (g s b).db = s.db) :
    ∀ (l : List β) (s : SysState), (l.foldl g s).db = s.db := by
  intro l
  induction l with
  | nil => intro s; rfl
  | cons b l ih =>
    intro s
    simp only [List.foldl_cons]
    rw [ih (g s b), hg s b]

theorem foldl_removedDirs_eq {β : Type} (g : SysState → β → SysState)
    (hg : ∀ s b, (g s b).removedDirs = s.removedDirs) :
    ∀ (l : List β) (s : SysState), (l.foldl g s).removedDirs = s.removedDirs := by
  intro l
  induction l with
  | nil => intro s; rfl
  | cons b l ih =>
    intro s
    simp only [List.foldl_cons]
    rw [ih (g s b), hg s b]

theorem sync_main_db (repoId : String) (env : CreateWtEnv) (s : SysState) :
    (sync_main_worktree repoId env s).db = s.db := by
  unfold sync_main_worktree
  rw [setProgress_db, foldl_db_eq _ (fun s b => setProgress_db _ _ _),
    setProgress_db, setProgress_db]

theorem sync_main_removedDirs (repoId : String) (env : CreateWtEnv) (s : SysState) :
    (sync_main_worktree repoId env s).removedDirs = s.removedDirs := by
  unfold sync_main_worktree
  rw [setProgress_removedDirs, foldl_removedDirs_eq _ (fun s b => setProgress_removedDirs _ _ _),
    setProgress_removedDirs, setProgress_removedDirs]

theorem except_ok_bind {ε α β : Type} (x : Except ε α) (f : α → Except ε β) (b : β)
    (h : x >>= f = .ok b) : ∃ a, x = .ok a ∧ f a = .ok b := by
  cases x with
  | ok a => exact ⟨a, rfl, h⟩
  | error e => simp [Bind.bind, Except.bind] at h

theorem find?_append_left_none {α : Type} (p : α → Bool) (l1 l2 : List α)
    (h : l1.find? p = none) : (l1 ++ l2).find? p = l2.find? p := by
  induction l1 with
  | nil => rfl
  | cons a l ih =>
    by_cases ha : p a = true
    · rw [List.find?_cons_of_pos _ ha] at h
      cases h
    · rw [List.find?_cons_of_neg _ ha] at h
      rw [List.cons_append, List.find?_cons_of_neg _ ha]
      exact ih h

theorem find?_append_right_none {α : Type} (p : α → Bool) (l1 l2 : List α)
    (h : ∀ x ∈ l2, p x = false) : (l1 ++ l2).find? p = l1.find? p := by
  induction l1 with
  | nil =>
    simp only [List.nil_append, List.find?_nil]
    rw [List.find?_eq_none]
    intro x hx
    rw [h x hx]
    exact Bool.false_ne_true
  | cons a l ih =>
    by_cases ha : p a = true
    · rw [List.cons_append, List.find?_cons_of_pos _ ha, List.find?_cons_of_pos _ ha]
    · rw [List.cons_append, List.find?_cons_of_neg _ ha, List.find?_cons_of_neg _ ha]
      exact ih

theorem find?_map_pred {α : Type} (f : α → α) (p : α → Bool)
    (hf : ∀ a, p (f a) = p a) (l : List α) :
    (l.map f).find? p = (l.find? p).map f := by
  induction l with
  | nil => rfl
  | cons a l ih =>
    by_cases ha : p a = true
    · rw [List.map_cons, List.find?_cons_of_pos _ (by rw [hf a]; exact ha),
        List.find?_cons_of_pos _ ha]
      rfl
    · rw [List.map_cons, List.find?_cons_of_neg _ (by rw [hf a]; exact ha),
        List.find?_cons_of_neg _ ha]
      exact ih

theorem getRepository_insertWorktree (id p rid br : String) (st : WtStatus) (now : Nat)
    (db : Db) : getRepository id (insertWorktree p rid br st now db) = getRepository id db :=
  rfl

theorem getRepository_updateWorktreeStatus (id p : String) (st : WtStatus)
    (hd cm : Option String) (db : Db) :
    getRepository id (updateWorktreeStatus p st hd cm db) = getRepository id db :=
  rfl

theorem getWorktree_insertWorktree_new (db : Db) (p rid br : String) (st : WtStatus)
    (now : Nat) (h : getWorktree p db = none) :
    getWorktree p (insertWorktree p rid br st now db) =
      some ⟨p, rid, br, none, st, none, false, 0, 0, 0, now⟩ := by
  unfold getWorktree at h
  unfold getWorktree insertWorktree
  rw [find?_append_left_none _ _ _ h]
  exact List.find?_cons_of_pos _ (beq_self_eq_true p)

theorem getWorktree_insertWorktree_other (db : Db) (q p rid br : String) (st : WtStatus)
    (now : Nat) (hne : q ≠ p) :
    getWorktree q (insertWorktree p rid br st now db) = getWorktree q db := by
  unfold getWorktree insertWorktree
  rw [find?_append_right_none]
  intro x hx
  simp only [List.mem_singleton] at hx
  subst hx
  exact beq_eq_false_iff_ne.mpr (Ne.symm hne)

theorem getWorktree_updateStatus_self (db : Db) (p : String) (st : WtStatus)
    (hd cm : Option String) (w : WorktreeRow) (h : getWorktree p db = some w) :
    getWorktree p (updateWorktreeStatus p st hd cm db) =
      some { w with status := st, head := hd, commitMessage := cm } := by
  unfold getWorktree at h
  unfold getWorktree updateWorktreeStatus
  rw [find?_map_pred]
  · rw [h]
    have hw := List.find?_some h
    dsimp only [Option.map]
    rw [if_pos hw]
  · intro a
    by_cases ha : (a.path == p) = true
    · rw [if_pos ha]
    · rw [if_neg ha]

theorem getWorktree_updateStatus_other (db : Db) (q p : String) (st : WtStatus)
    (hd cm : Option String) (hne : q ≠ p) :
    getWorktree q (updateWorktreeStatus p st hd cm db) = getWorktree q db := by
  unfold getWorktree updateWorktreeStatus
  rw [find?_map_pred]
  · cases hq : db.worktrees.find? (fun w => w.path == q) with
    | none => rfl
    | some w =>
      have hw := List.find?_some hq
      have hwp : (w.path == p) = false := by
        rw [beq_iff_eq] at hw
        rw [beq_eq_false_iff_ne, hw]
        exact hne
      dsimp only [Option.map]
      rw [if_neg (by rw [hwp]; exact Bool.false_ne_true)]
  · intro a
    by_cases ha : (a.path == p) = true
    · rw [if_pos ha]
    · rw [if_neg ha]

theorem getWorktree_deleteRow_self (db : Db) (p : String) :
    getWorktree p (deleteWorktreeRow p db) = none := by
  unfold getWorktree deleteWorktreeRow
  rw [List.find?_eq_none]
  intro x hx
  have hflt := (List.mem_filter.mp hx).2
  have h2 : (x.path == p) = false := by
    cases hb : (x.path == p) with
    | false => rfl
    | true => rw [hb] at hflt; simp at hflt
  rw [h2]
  exact Bool.false_ne_true

theorem listWorktrees_delete_ne (db : Db) (rid p : String) (w : WorktreeRow)
    (h : w ∈ listWorktrees rid (deleteWorktreeRow p db)) : w.path ≠ p := by
  unfold listWorktrees deleteWorktreeRow at h
  have h1 := (List.mem_filter.mp h).1
  have h2 := (List.mem_filter.mp h1).2
  intro he
  rw [he] at h2
  simp at h2

theorem cloneBody_ok_shape (env : CloneEnv) (repoId localPath : String) (skip : Bool)
    (s s' : SysState) (h : cloneBody env repoId localPath skip s = .ok s') :
    ∃ t, s' = onDbChange (setProgress repoId none t) := by
  unfold cloneBody at h
  obtain ⟨x1, -, h⟩ := except_ok_bind _ _ _ h
  try dsimp only at h
  obtain ⟨x2, -, h⟩ := except_ok_bind _ _ _ h
  try dsimp only at h
  obtain ⟨x3, -, h⟩ := except_ok_bind _ _ _ h
  try dsimp only at h
  obtain ⟨x4, -, h⟩ := except_ok_bind _ _ _ h
  try dsimp only at h
  obtain ⟨x5, -, h⟩ := except_ok_bind _ _ _ h
  try dsimp only at h
  obtain ⟨x6, -, h⟩ := except_ok_bind _ _ _ h
  try dsimp only at h
  obtain ⟨x7, -, h⟩ := except_ok_bind _ _ _ h
  try dsimp only at h
  obtain ⟨x8, -, h⟩ := except_ok_bind _ _ _ h
  try dsimp only at h
  injection h with h
  exact ⟨_, h.symm⟩

theorem createWorktreeBody_ok_flags (env : CreateWtEnv) (wp rid : String) (skip : Bool)
    (s : SysState) (h1 : env.createOk = true) (h2 : env.statusOk = true) :
    ∃ t, createWorktreeBody env wp rid skip s =
      .ok (onDbChange (setProgress rid none (setProgress wp none t))) := by
  unfold createWorktreeBody
  rw [h1, h2]
  exact ⟨_, rfl⟩

theorem createWorktreeBody_error_state (env : CreateWtEnv) (wp rid : String) (skip : Bool)
    (s : SysState) (hfail : env.createOk = false ∨ env.statusOk = false) :
    ∃ t, createWorktreeBody env wp rid skip s = .error t ∧ t.db = s.db ∧
      t.removedDirs = s.removedDirs ∧ (t.progress.lookup wp).isSome = true := by
  cases hcr : env.createOk with
  | false =>
    refine ⟨setProgress wp (some "Creating worktree...") (sync_main_worktree rid env s),
      ?_, ?_, ?_, ?_⟩
    · unfold createWorktreeBody
      rw [hcr]
      rfl
    · rw [setProgress_db, sync_main_db]
    · rw [setProgress_removedDirs, sync_main_removedDirs]
    · rw [setProgress_some_progress, lookup_mapInsert_self]
      rfl
  | true =>
    have hst : env.statusOk = false := by
      rcases hfail with hc | hs
      · rw [hcr] at hc; cases hc
      · exact hs
    refine ⟨setProgress wp (some "Getting status...")
        (if skip then
          (setProgress wp (some "Sharing files...")
            (setProgress wp (some "Creating worktree...") (sync_main_worktree rid env s)))
        else env.managers.foldl
          (fun s pm => setProgress wp (some ("Installing (" ++ pm ++ ")...")) s)
          (setProgress wp (some "Sharing files...")
            (setProgress wp (some "Creating worktree...") (sync_main_worktree rid env s)))),
      ?_, ?_, ?_, ?_⟩
    · unfold createWorktreeBody
      rw [hcr, hst]
      rfl
    · rw [setProgress_db]
      cases skip with
      | true =>
        rw [if_pos rfl, setProgress_db, setProgress_db, sync_main_db]
      | false =>
        rw [if_neg Bool.false_ne_true,
          foldl_db_eq _ (fun s b => setProgress_db _ _ _),
          setProgress_db, setProgress_db, sync_main_db]
    · rw [setProgress_removedDirs]
      cases skip with
      | true =>
        rw [if_pos rfl, setProgress_removedDirs, setProgress_removedDirs,
          sync_main_removedDirs]
      | false =>
        rw [if_neg Bool.false_ne_true,
          foldl_removedDirs_eq _ (fun s b => setProgress_removedDirs _ _ _),
          setProgress_removedDirs, setProgress_removedDirs, sync_main_removedDirs]
    · rw [setProgress_some_progress, lookup_mapInsert_self]
      rfl

/-! ## Claim C2: progress discipline of the lifecycle pipelines -/

/-- C2 counterexample: a concrete worktree-creation run whose backend
create-worktree step fails.  The pipeline ends with the worktree's progress
entry still set to "Creating worktree..." — the error exit only flips the row
to `Error` and pushes, it never clears the progress key. -/
theorem create_worktree_progress_stuck_cex :
    (create_worktree_pipeline cexCreateEnv "/code/acme/widgets/feat" "feat" "r1" false
        cexState2).progress.lookup "/code/acme/widgets/feat" =
      some "Creating worktree..." ∧
    ¬ ((create_worktree_pipeline cexCreateEnv "/code/acme/widgets/feat" "feat" "r1" false
        cexState2).progress.lookup "/code/acme/widgets/feat" = none) := by
  refine ⟨by decide, by decide⟩

/-- C2 (amended): the clone pipeline always terminates with the repository's
progress entry cleared and a final push; so do the refresh pipeline and the
successful paths of repository deletion and worktree creation.  The
worktree-deletion pipeline never touches the progress map and ends with a
push.  The exceptions the code actually has: a repository deletion whose
directory removal fails returns with the "Deleting..." progress entry still
set, and a worktree creation that hits a hard failure ends with the
worktree's progress entry still present (only the status flip and a push
happen). -/
theorem pipeline_progress_discipline :
    (∀ (env : CloneEnv) (repoId localPath : String) (skip : Bool) (s : SysState),
        endsClear repoId (do_clone env repoId localPath skip s).1) ∧
    (∀ (env : RefreshEnv) (id : String) (s : SysState) (r : RepoRow),
        getRepository id s.db = some r →
        endsClear id (refresh_pipeline env id s).1) ∧
    (∀ (env : DeleteWtEnv) (path : String) (s : SysState) (wt : WorktreeRow) (r : RepoRow),
        getWorktree path s.db = some wt →
        getRepository wt.repoId s.db = some r →
        (delete_worktree_pipeline env path s).1.progress = s.progress ∧
        (delete_worktree_pipeline env path s).1.lastPush =
          some (s.progress, (delete_worktree_pipeline env path s).1.db)) ∧
    (∀ (env : DeleteRepoEnv) (id : String) (s : SysState) (r : RepoRow),
        getRepository id s.db = some r →
        (env.dirExists = true → env.removeOk = true) →
        endsClear id (delete_repository env id s).1) ∧
    (∀ (env : DeleteRepoEnv) (id : String) (s : SysState) (r : RepoRow),
        getRepository id s.db = some r →
        env.dirExists = true → env.removeOk = false →
        (delete_repository env id s).1.progress.lookup id = some "Deleting..." ∧
        (delete_repository env id s).2 = false) ∧
    (∀ (env : CreateWtEnv) (wp branch rid : String) (skip : Bool) (s : SysState),
        env.createOk = true → env.statusOk = true →
        endsClear wp (create_worktree_pipeline env wp branch rid skip s) ∧
        (create_worktree_pipeline env wp branch rid skip s).progress.lookup rid = none) ∧
    (∀ (env : CreateWtEnv) (wp branch rid : String) (skip : Bool) (s : SysState),
        env.createOk = false ∨ env.statusOk = false →
        ((create_worktree_pipeline env wp branch rid skip s).progress.lookup wp).isSome
          = true ∧
        (create_worktree_pipeline env wp branch rid skip s).lastPush =
          some ((create_worktree_pipeline env wp branch rid skip s).progress,
                (create_worktree_pipeline env wp branch rid skip s).db)) := by
  refine ⟨?_, ?_, ?_, ?_, ?_, ?_, ?_⟩
  · intro env repoId lp skip s
    cases hb : cloneBody env repoId lp skip s with
    | ok s' =>
      obtain ⟨t, hts⟩ := cloneBody_ok_shape _ _ _ _ _ _ hb
      have hres : (do_clone env repoId lp skip s).1 = s' := by
        unfold do_clone
        rw [hb]
      rw [hres, hts]
      exact endsClear_onDbChange _ _ (lookup_setProgress_none _ _)
    | error s' =>
      unfold do_clone
      rw [hb]
      dsimp only
      apply endsClear_onDbChange
      cases env.dirExistsCleanup with
      | false => exact lookup_setProgress_none _ _
      | true =>
        cases env.removeCleanupOk with
        | false => exact lookup_setProgress_none _ _
        | true => exact lookup_setProgress_none _ _
  · intro env id s r hr
    unfold refresh_pipeline
    rw [hr]
    dsimp only
    exact endsClear_onDbChange _ _ (lookup_setProgress_none _ _)
  · intro env path s wt r hw hr
    unfold delete_worktree_pipeline
    rw [hw]
    dsimp only
    rw [hr]
    dsimp only
    cases env.dirExists with
    | false => exact ⟨rfl, rfl⟩
    | true =>
      cases env.dirRemoveOk with
      | false => exact ⟨rfl, rfl⟩
      | true => exact ⟨rfl, rfl⟩
  · intro env id s r hr himp
    unfold delete_repository
    rw [hr]
    dsimp only
    cases hde : env.dirExists with
    | false => exact endsClear_onDbChange _ _ (lookup_setProgress_none _ _)
    | true =>
      have hro : env.removeOk = true := himp hde
      rw [hro]
      exact endsClear_onDbChange _ _ (lookup_setProgress_none _ _)
  · intro env id s r hr hde hro
    unfold delete_repository
    rw [hr]
    try dsimp only
    rw [hde, hro]
    try dsimp only
    exact ⟨lookup_mapInsert_self _ _ _, rfl⟩
  · intro env wp branch rid skip s h1 h2
    obtain ⟨t, hok⟩ := createWorktreeBody_ok_flags env wp rid skip
      (onDbChange { s with db := insertWorktree wp rid branch .creating env.now s.db }) h1 h2
    unfold create_worktree_pipeline
    dsimp only
    rw [hok]
    try dsimp only
    refine ⟨⟨?_, rfl⟩, ?_⟩
    · exact lookup_mapErase_none wp rid _ (lookup_mapErase_self wp t.progress)
    · exact lookup_mapErase_self rid _
  · intro env wp branch rid skip s hfail
    obtain ⟨t, herr, hdb, hrem, hsome⟩ := createWorktreeBody_error_state env wp rid skip
      (onDbChange { s with db := insertWorktree wp rid branch .creating env.now s.db }) hfail
    unfold create_worktree_pipeline
    dsimp only
    rw [herr]
    try dsimp only
    exact ⟨hsome, rfl⟩

/-- C2 witness: the failure clause of the discipline theorem instantiated on
the concrete failing worktree creation. -/
theorem pipeline_progress_discipline_witness :
    ((create_worktree_pipeline cexCreateEnv "/code/acme/widgets/feat" "feat" "r1" false
        cexState2).progress.lookup "/code/acme/widgets/feat").isSome = true ∧
    (create_worktree_pipeline cexCreateEnv "/code/acme/widgets/feat" "feat" "r1" false
        cexState2).lastPush =
      some ((create_worktree_pipeline cexCreateEnv "/code/acme/widgets/feat" "feat" "r1"
              false cexState2).progress,
            (create_worktree_pipeline cexCreateEnv "/code/acme/widgets/feat" "feat" "r1"
              false cexState2).db) :=
  pipeline_progress_discipline.2.2.2.2.2.2 cexCreateEnv "/code/acme/widgets/feat" "feat"
    "r1" false cexState2 (Or.inl rfl)

/-! ## Claim C6: a failed worktree creation retains an `Error` row -/

/-- C6: if the worktree-creation pipeline hits a hard failure (the backend
create-worktree step or the status read) after the provisional row is
written, the worktree row still exists with status `Error`, the pipeline has
removed no directory, and the repository row and the primary worktree row
are unchanged.  (Store writes are modelled as infallible, so the persist
steps cannot fail in the model.) -/
theorem create_worktree_failure_retains_error_row :
    ∀ (env : CreateWtEnv) (wp branch rid mainPath : String) (skip : Bool) (s : SysState),
      (env.createOk = false ∨ env.statusOk = false) →
      wp ≠ mainPath →
      getWorktree wp s.db = none →
      (∃ w, getWorktree wp (create_worktree_pipeline env wp branch rid skip s).db = some w ∧
        w.status = WtStatus.error) ∧
      (create_worktree_pipeline env wp branch rid skip s).removedDirs = s.removedDirs ∧
      getRepository rid (create_worktree_pipeline env wp branch rid skip s).db =
        getRepository rid s.db ∧
      getWorktree mainPath (create_worktree_pipeline env wp branch rid skip s).db =
        getWorktree mainPath s.db := by
  intro env wp branch rid mainPath skip s hfail hne hnew
  obtain ⟨t, herr, hdb, hrem, hsome⟩ := createWorktreeBody_error_state env wp rid skip
    (onDbChange { s with db := insertWorktree wp rid branch .creating env.now s.db }) hfail
  have hdb' : t.db = insertWorktree wp rid branch .creating env.now s.db := hdb
  unfold create_worktree_pipeline
  dsimp only
  rw [herr]
  try dsimp only
  refine ⟨?_, ?_, ?_, ?_⟩
  · have hins := getWorktree_insertWorktree_new s.db wp rid branch .creating env.now hnew
    have htdb : getWorktree wp t.db =
        some ⟨wp, rid, branch, none, .creating, none, false, 0, 0, 0, env.now⟩ := by
      rw [hdb']
      exact hins
    have hupd := getWorktree_updateStatus_self t.db wp .error none none _ htdb
    exact ⟨_, hupd, rfl⟩
  · exact hrem
  · show getRepository rid (updateWorktreeStatus wp .error none none t.db) =
      getRepository rid s.db
    rw [getRepository_updateWorktreeStatus, hdb', getRepository_insertWorktree]
  · show getWorktree mainPath (updateWorktreeStatus wp .error none none t.db) =
      getWorktree mainPath s.db
    rw [getWorktree_updateStatus_other _ _ _ _ _ _ (Ne.symm hne), hdb']
    exact getWorktree_insertWorktree_other s.db mainPath wp rid branch .creating env.now
      (Ne.symm hne)

/-- C6 witness: the theorem instantiated on the concrete failing creation of
`feat` next to the primary worktree. -/
theorem create_worktree_failure_retains_error_row_witness :
    (∃ w, getWorktree "/code/acme/widgets/feat"
        (create_worktree_pipeline cexCreateEnv "/code/acme/widgets/feat" "feat" "r1" true
          cexState2).db = some w ∧ w.status = WtStatus.error) ∧
    (create_worktree_pipeline cexCreateEnv "/code/acme/widgets/feat" "feat" "r1" true
        cexState2).removedDirs = cexState2.removedDirs ∧
    getRepository "r1" (create_worktree_pipeline cexCreateEnv "/code/acme/widgets/feat"
        "feat" "r1" true cexState2).db = getRepository "r1" cexState2.db ∧
    getWorktree "/code/acme/widgets/.main"
        (create_worktree_pipeline cexCreateEnv "/code/acme/widgets/feat" "feat" "r1" true
          cexState2).db =
      getWorktree "/code/acme/widgets/.main" cexState2.db :=
  create_worktree_failure_retains_error_row cexCreateEnv "/code/acme/widgets/feat" "feat"
    "r1" "/code/acme/widgets/.main" true cexState2 (Or.inl rfl) (by decide) (by decide)

/-! ## Claim C7: worktree deletion removes the row unconditionally -/

/-- C7: whatever the outcomes of the backend worktree removal and the on-disk
directory removal (both drawn from the environment), the worktree-deletion
pipeline deletes the store row: afterwards the worktree is absent and no
`listWorktrees` result for any repository contains its path. -/
theorem delete_worktree_removes_row :
    ∀ (env : DeleteWtEnv) (path : String) (s : SysState) (wt : WorktreeRow) (r : RepoRow),
      getWorktree path s.db = some wt →
      getRepository wt.repoId s.db = some r →
      getWorktree path (delete_worktree_pipeline env path s).1.db = none ∧
      (∀ (repoId : String) (w : WorktreeRow),
        w ∈ listWorktrees repoId (delete_worktree_pipeline env path s).1.db →
          w.path ≠ path) := by
  intro env path s wt r hw hr
  unfold delete_worktree_pipeline
  rw [hw]
  dsimp only
  rw [hr]
  dsimp only
  cases env.dirExists with
  | false =>
    exact ⟨getWorktree_deleteRow_self _ _,
      fun repoId w hmem => listWorktrees_delete_ne _ _ _ _ hmem⟩
  | true =>
    cases env.dirRemoveOk with
    | false =>
      exact ⟨getWorktree_deleteRow_self _ _,
        fun repoId w hmem => listWorktrees_delete_ne _ _ _ _ hmem⟩
    | true =>
      exact ⟨getWorktree_deleteRow_self _ _,
        fun repoId w hmem => listWorktrees_delete_ne _ _ _ _ hmem⟩

/-- C7 witness: deleting the `feat` worktree with both the backend removal
and the directory removal failing still removes the row. -/
theorem delete_worktree_removes_row_witness :
    getWorktree "/code/acme/widgets/feat"
      (delete_worktree_pipeline wDeleteWtEnv "/code/acme/widgets/feat" cexState3).1.db =
        none ∧
    (∀ (repoId : String) (w : WorktreeRow),
      w ∈ listWorktrees repoId
          (delete_worktree_pipeline wDeleteWtEnv "/code/acme/widgets/feat" cexState3).1.db →
        w.path ≠ "/code/acme/widgets/feat") :=
  delete_worktree_removes_row wDeleteWtEnv "/code/acme/widgets/feat" cexState3 featWtRow
    cexRepoRow (by decide) (by decide)

end GitHud
